import Mathlib

/-!
Verification of the keyword-extraction pipeline of the KeyWord_Extraction
repository. The backend preprocessing code (`TextPreprocessor.clean_text`,
the stop-words removal snippet) is embedded from the Python fragments quoted
in the repository's design document; the pipeline orchestration
(`extract_keywords`, selection, fallback policy) whose `app.py` source is not
in the repository snapshot is modelled from the specification. The compiled
and source versions of the React frontend are embedded as state-transition
functions. Character classes model the ASCII fragment of Python's `re`
semantics (`\w` = alphanumeric or underscore, `\s` = ASCII whitespace).
-/

namespace KWX

/-- Python `\s` on ASCII: space, tab, newline, carriage return, form feed,
vertical tab. -/
def isPySpace (c : Char) : Bool :=
  c = ' ' || c = '\t' || c = '\n' || c = '\r' || c = '\x0b' || c = '\x0c'

/-- Python `\w` on ASCII: letters, digits, underscore. -/
def isWordChar (c : Char) : Bool :=
  c.isAlphanum || c = '_'

/-- Characters kept by the punctuation-stripping regex
`re.sub(r'[^\w\s-]', '', text)`: word characters, whitespace, hyphen. -/
def isKeptChar (c : Char) : Bool :=
  isWordChar c || isPySpace c || c = '-'

/-- Step 1 of `clean_text`: `text = text.lower()`. -/
def lowerStage (l : List Char) : List Char :=
  l.map Char.toLower

/-- Does `lit` occur as a prefix of `l`? (Literal regex matching.) -/
def startsWithLit : List Char → List Char → Bool
  | [], _ => true
  | _ :: _, [] => false
  | p :: ps, c :: cs => p = c && startsWithLit ps cs

/-- If `l` starts with a URL pattern `https?://\S+` or `www\.\S+`, return the
number of characters the (greedy) match consumes, else `none`. The literal is
followed by at least one non-whitespace character, and `\S+` greedily consumes
the whole non-whitespace run. -/
def urlMatchLen (l : List Char) : Option Nat :=
  if startsWithLit "https://".data l then
    let rest := l.drop 8
    if rest.takeWhile (fun c => !isPySpace c) = [] then none
    else some (8 + (rest.takeWhile (fun c => !isPySpace c)).length)
  else if startsWithLit "http://".data l then
    let rest := l.drop 7
    if rest.takeWhile (fun c => !isPySpace c) = [] then none
    else some (7 + (rest.takeWhile (fun c => !isPySpace c)).length)
  else if startsWithLit "www.".data l then
    let rest := l.drop 4
    if rest.takeWhile (fun c => !isPySpace c) = [] then none
    else some (4 + (rest.takeWhile (fun c => !isPySpace c)).length)
  else none

/-- Left-to-right scan of `re.sub(r'https?://\S+|www\.\S+', '', text)`,
with explicit fuel (one unit per character position). -/
def urlScanAux : Nat → List Char → List Char
  | 0, l => l
  | _ + 1, [] => []
  | fuel + 1, c :: rest =>
    match urlMatchLen (c :: rest) with
    | some k => urlScanAux fuel ((c :: rest).drop k)
    | none => c :: urlScanAux fuel rest

/-- Step 2 of `clean_text`: `re.sub(r'https?://\S+|www\.\S+', '', text)`. -/
def urlStage (l : List Char) : List Char :=
  urlScanAux l.length l

/-- Find the closing `>` of a markup tag: `re`'s lazy `<.*?>` matches up to
the first `>` with no intervening newline (`.` does not match `\n`). Returns
the suffix after that `>`, or `none` when no such `>` exists. -/
def findTagClose : List Char → Option (List Char)
  | [] => none
  | c :: rest =>
    if c = '>' then some rest
    else if c = '\n' then none
    else findTagClose rest

/-- Left-to-right scan of `re.sub(r'<.*?>', '', text)`, with fuel. -/
def htmlScanAux : Nat → List Char → List Char
  | 0, l => l
  | _ + 1, [] => []
  | fuel + 1, c :: rest =>
    if c = '<' then
      match findTagClose rest with
      | some suffix => htmlScanAux fuel suffix
      | none => c :: htmlScanAux fuel rest
    else c :: htmlScanAux fuel rest

/-- Step 3 of `clean_text`: `re.sub(r'<.*?>', '', text)`. -/
def htmlStage (l : List Char) : List Char :=
  htmlScanAux l.length l

/-- Step 4 of `clean_text`: `re.sub(r'[^\w\s-]', '', text)`. -/
def punctStage (l : List Char) : List Char :=
  l.filter isKeptChar

/-- Python `str.strip()`: drop leading and trailing whitespace. -/
def stripEnds (l : List Char) : List Char :=
  ((l.dropWhile isPySpace).reverse.dropWhile isPySpace).reverse

/-- Collapse every maximal run of whitespace to a single `' '`
(the substitution part of `re.sub(r'\s+', ' ', text)`). -/
def collapseWs : List Char → List Char
  | [] => []
  | [c] => [if isPySpace c then ' ' else c]
  | a :: b :: rest =>
    if isPySpace a && isPySpace b then collapseWs (b :: rest)
    else (if isPySpace a then ' ' else a) :: collapseWs (b :: rest)

/-- Step 5 of `clean_text`: `re.sub(r'\s+', ' ', text.strip())`. -/
def wsStage (l : List Char) : List Char :=
  collapseWs (stripEnds l)

/-- `TextPreprocessor.clean_text` on character lists, in the documented
order: lowercase, URL removal, HTML-tag removal, punctuation removal,
whitespace normalization. -/
def cleanList (l : List Char) : List Char :=
  wsStage (punctStage (htmlStage (urlStage (lowerStage l))))

/-- `TextPreprocessor.clean_text` on strings (the Normalizer). -/
def normalize (s : String) : String :=
  String.mk (cleanList s.data)

/-- The character classes that can survive normalization: lowercase ASCII
letters, digits, underscore, hyphen, space. -/
def isCleanChar (c : Char) : Bool :=
  c.isLower || c.isDigit || c = '_' || c = '-' || c = ' '

/-- NLTK's English stop-word list (`stopwords.words('english')`), an external
data file of the NLTK library. Contraction forms (you-re, don-t, ...) are
omitted: they contain apostrophes, which the normalizer strips before any
filtering, so they can never match a candidate token of cleaned text. -/
def nltkEnglishStopwords : List String :=
  ["i", "me", "my", "myself", "we", "our", "ours", "ourselves", "you",
   "your", "yours", "yourself", "yourselves", "he", "him", "his", "himself",
   "she", "her", "hers", "herself", "it", "its", "itself", "they", "them",
   "their", "theirs", "themselves", "what", "which", "who", "whom", "this",
   "that", "these", "those", "am", "is", "are", "was", "were", "be", "been",
   "being", "have", "has", "had", "having", "do", "does", "did", "doing",
   "a", "an", "the", "and", "but", "if", "or", "because", "as", "until",
   "while", "of", "at", "by", "for", "with", "about", "against", "between",
   "into", "through", "during", "before", "after", "above", "below", "to",
   "from", "up", "down", "in", "out", "on", "off", "over", "under", "again",
   "further", "then", "once", "here", "there", "when", "where", "why", "how",
   "all", "any", "both", "each", "few", "more", "most", "other", "some",
   "such", "no", "nor", "not", "only", "own", "same", "so", "than", "too",
   "very", "s", "t", "can", "will", "just", "don", "should", "now"]

/-- The domain-specific supplement from the snippet:
`stop_words.update(['via', 'using', 'eg', 'ie', 'skip'])`. -/
def stopwordSupplement : List String :=
  ["via", "using", "eg", "ie", "skip"]

/-- The configured exclusion set: `stop_words` in `TextPreprocessor`. -/
def stop_words : List String :=
  nltkEnglishStopwords ++ stopwordSupplement

/-- Whitespace tokenization, accumulator-passing worker. -/
def wordsGo : List Char → List Char → List (List Char)
  | [], acc => if acc.isEmpty then [] else [acc.reverse]
  | c :: rest, acc =>
    if isPySpace c then
      if acc.isEmpty then wordsGo rest [] else acc.reverse :: wordsGo rest []
    else wordsGo rest (c :: acc)

/-- Whitespace tokenization of a character list (maximal non-space runs). -/
def words (l : List Char) : List (List Char) :=
  wordsGo l []

/-- Python `str.split()` with no arguments: split on whitespace runs,
discarding empty tokens. -/
def pySplit (s : String) : List String :=
  (words s.data).map String.mk

/-- The stop-words removal snippet exactly as quoted in the repository
documentation:
`word_tokens = text.split()` then
`text = ' '.join([word for word in word_tokens if len(word) >= 1])`.
Note that the filter condition is `len(word) >= 1`; the `stop_words` set is
constructed just above it but never consulted here. -/
def remove_stopwords_code (text : String) : String :=
  String.intercalate " " ((pySplit text).filter (fun w => 1 ≤ w.length))

/-- Modelled from the spec: `filter_candidates` (Stopword Filter, §4.3) of
the missing backend `app.py`. Removes candidates whose normalized
(lowercased) form is in the configured exclusion set and candidates shorter
than the minimum length threshold (1, i.e. empty strings). -/
def filter_candidates (cands : List String) : List String :=
  cands.filter (fun c =>
    !(stop_words.contains (String.mk (c.data.map Char.toLower))) && 1 ≤ c.length)

/-- A scored keyword: surface text plus relevance score (scores modelled as
rationals). -/
structure Kw where
  keyword : String
  score : ℚ
  deriving DecidableEq, Repr

/-- Insert a scored keyword into a descending-by-score list. -/
def insertDesc (p : Kw) : List Kw → List Kw
  | [] => [p]
  | q :: rest => if q.score < p.score then p :: q :: rest else q :: insertDesc p rest

/-- Sort scored keywords by descending score (stable insertion sort: ties
keep their original relative order, as Python's `sorted` does). -/
def sortDesc (l : List Kw) : List Kw :=
  l.foldl (fun acc p => insertDesc p acc) []

/-- Case-insensitive key of a keyword surface text. -/
def lowerKey (s : String) : String :=
  String.mk (s.data.map Char.toLower)

/-- Keep-first case-insensitive deduplication, fueled worker. -/
def dedupCIAux : Nat → List Kw → List Kw
  | 0, _ => []
  | _ + 1, [] => []
  | fuel + 1, p :: rest =>
    p :: dedupCIAux fuel (rest.filter (fun q => lowerKey q.keyword != lowerKey p.keyword))

/-- Keep-first case-insensitive deduplication of scored keywords. -/
def dedupCI (l : List Kw) : List Kw :=
  dedupCIAux l.length l

/-- Pipeline options (§6): `top_k`, `diversity`, `min_score`. -/
structure Options where
  top_k : Nat
  diversity : ℚ
  min_score : ℚ
  deriving DecidableEq, Repr

/-- Default options: top_k 10, diversity 0.3, min_score 0.05. -/
def defaultOptions : Options :=
  ⟨10, mkRat 3 10, mkRat 1 20⟩

/-- Modelled from the spec: Diversity Selector (§4.5) of the missing backend
`app.py`. MMR's embedding-space similarity is not representable concretely;
per §3 and §6 the result set is ordered by descending score and
deduplicated, so selection is modelled as descending-score choice of `top_k`
distinct phrases followed by the `min_score` cut. -/
def select (scored : List Kw) (top_k : Nat) (min_score : ℚ) : List Kw :=
  ((dedupCI (sortDesc scored)).take top_k).filter (fun p => min_score ≤ p.score)

/-- Error taxonomy of the pipeline (§7), restricted to the errors reachable
in the embedding. -/
inductive ExtractError
  | invalidInput
  | noKeywords
  deriving DecidableEq, Repr

/-- Fallback tier (a): re-run selection without the `min_score` cut and
return the top 2 candidates regardless of absolute score. -/
def tierA (scored : List Kw) : List Kw :=
  (dedupCI (sortDesc scored)).take 2

/-- Fallback tier (b): score the raw token vocabulary of the document
(bypassing noun-phrase candidates) and return the top 2. -/
def tierB (score : String → ℚ) (doc : String) : List Kw :=
  (dedupCI (sortDesc ((pySplit doc).map (fun t => Kw.mk t (score t))))).take 2

/-- Modelled from the spec: `apply_fallback` (Fallback Policy, §4.6) of the
missing backend `app.py`. Tier (a): when candidates were scored, top 2
without the `min_score` cut. Tier (b): when no candidates existed, score the
raw token vocabulary of the document. `NoKeywordsError` only when the
document is empty post-normalization (then the vocabulary is empty too). -/
def apply_fallback (primary : List Kw) (scored : List Kw) (score : String → ℚ)
    (doc : String) : Except ExtractError (List Kw) :=
  if primary.isEmpty then
    if scored.isEmpty then
      if (tierB score doc).isEmpty then Except.error ExtractError.noKeywords
      else Except.ok (tierB score doc)
    else Except.ok (tierA scored)
  else Except.ok primary

/-- Modelled from the spec: the Candidate Generator (§4.2) of the missing
backend `app.py`. The syntactic noun-phrase parser is an external pretrained
model, passed as the parameter `parse`; the degenerate case emits individual
non-stopword tokens when the parse yields no noun phrases. -/
def pipelineCands (parse : String → List String) (doc : String) : List String :=
  if (parse doc).isEmpty
    then (pySplit doc).filter (fun t => !(stop_words.contains t))
    else parse doc

/-- The scored filtered candidates of a document: the Stopword Filter and
the Semantic Scorer applied to the candidate sequence. -/
def pipelineScored (parse : String → List String) (score : String → ℚ)
    (doc : String) : List Kw :=
  (filter_candidates (pipelineCands parse doc)).map (fun c => Kw.mk c (score c))

/-- Modelled from the spec: the boundary contract `extract_keywords` (§6) of
the missing backend `app.py`, orchestrating the pipeline: Normalizer (the
embedded `clean_text`), Candidate Generator, Stopword Filter, Semantic
Scorer (parameter `score`, the external embedding model), Diversity
Selector, Fallback Policy. -/
def extract_keywords (parse : String → List String) (score : String → ℚ)
    (opts : Options) (raw : String) : Except ExtractError (List Kw) :=
  if raw = "" then Except.error ExtractError.invalidInput
  else if normalize raw = "" then Except.error ExtractError.noKeywords
  else
    apply_fallback
      (select (pipelineScored parse score (normalize raw)) opts.top_k opts.min_score)
      (pipelineScored parse score (normalize raw)) score (normalize raw)

/-- Modelled from the spec: the Normalizer contract `normalize` (§4.1) fails
with `InvalidInputError` when `raw_text` is empty ("not decodable as text"
has no counterpart here: every modelled string is decoded text). -/
def normalizeE (raw : String) : Except ExtractError String :=
  if raw = "" then Except.error ExtractError.invalidInput
  else Except.ok (normalize raw)

/-- The JSON body of a backend response as the frontend reads it:
`data.error` (empty string models a missing/falsy `error` field) and
`data.keywords`. -/
structure RespData where
  error : String
  keywords : List Kw
  deriving DecidableEq, Repr

/-- Outcome of `fetch` + `response.json()`: a parsed body, or a thrown
error (network failure / invalid JSON), which lands in the `catch` block. -/
inductive FetchOutcome
  | ok (data : RespData)
  | failure
  deriving DecidableEq, Repr

/-- A file selected in the file input (`e.target.files[0]`): name and MIME
type. -/
structure SelectedFile where
  name : String
  type : String
  deriving DecidableEq, Repr

/-- The React component state of `App`: the six `useState` hooks. -/
structure UiState where
  text : String
  file : Option SelectedFile
  keywords : List Kw
  error : String
  loading : Bool
  showProbabilities : Bool
  deriving DecidableEq, Repr

/-- URL requested by `handleTextSubmit` in the JSX source
(`src/App.jsx`). -/
def textUrlJsx : String :=
  "http://localhost:5001/extract_keywords"

/-- URL requested by `handleTextSubmit` in the compiled frontend
(`public/App.js`). -/
def textUrlCompiled : String :=
  "http://backend:5001/extract_keywords"

/-- URL requested by `handleFileSubmit` (identical in both versions). -/
def fileUrl : String :=
  "http://backend:5001/extract_keywords"

/-- `handleTextSubmit` of the JSX source: set loading, clear error and
keywords, POST the text to `textUrlJsx`, then assign error or keywords from
the response (or the catch message), and clear loading. `env` maps a request
URL to the fetch outcome. -/
def handleTextSubmitJsx (env : String → FetchOutcome) (s : UiState) : UiState :=
  let s1 : UiState := { s with loading := true, error := "", keywords := [] }
  let s2 : UiState :=
    match env textUrlJsx with
    | FetchOutcome.ok d =>
      if d.error ≠ "" then { s1 with error := d.error }
      else { s1 with keywords := d.keywords }
    | FetchOutcome.failure =>
      { s1 with error := "Failed to connect to the server. Ensure the backend is running." }
  { s2 with loading := false }

/-- `handleTextSubmit` of the compiled frontend: same steps as the JSX
version but the POST goes to `textUrlCompiled`. -/
def handleTextSubmitCompiled (env : String → FetchOutcome) (s : UiState) : UiState :=
  let s1 : UiState := { s with loading := true, error := "", keywords := [] }
  let s2 : UiState :=
    match env textUrlCompiled with
    | FetchOutcome.ok d =>
      if d.error ≠ "" then { s1 with error := d.error }
      else { s1 with keywords := d.keywords }
    | FetchOutcome.failure =>
      { s1 with error := "Failed to connect to the server. Ensure the backend is running." }
  { s2 with loading := false }

/-- `handleFileSubmit` of the JSX source: early return with an error when no
file is selected (keywords NOT cleared); otherwise clear error/keywords,
POST the form data to `fileUrl`, assign error or keywords, clear loading and
reset the file. -/
def handleFileSubmitJsx (env : String → FetchOutcome) (s : UiState) : UiState :=
  match s.file with
  | none => { s with error := "Please select a .txt file." }
  | some _ =>
    let s1 : UiState := { s with loading := true, error := "", keywords := [] }
    let s2 : UiState :=
      match env fileUrl with
      | FetchOutcome.ok d =>
        if d.error ≠ "" then { s1 with error := d.error }
        else { s1 with keywords := d.keywords }
      | FetchOutcome.failure =>
        { s1 with error := "Failed to connect to the server or invalid file format." }
    { s2 with loading := false, file := none }

/-- `handleFileSubmit` of the compiled frontend: identical to the JSX
version (same URL, same state updates). -/
def handleFileSubmitCompiled (env : String → FetchOutcome) (s : UiState) : UiState :=
  match s.file with
  | none => { s with error := "Please select a .txt file." }
  | some _ =>
    let s1 : UiState := { s with loading := true, error := "", keywords := [] }
    let s2 : UiState :=
      match env fileUrl with
      | FetchOutcome.ok d =>
        if d.error ≠ "" then { s1 with error := d.error }
        else { s1 with keywords := d.keywords }
      | FetchOutcome.failure =>
        { s1 with error := "Failed to connect to the server or invalid file format." }
    { s2 with loading := false, file := none }

/-- `handleFileChange` of the JSX source: accept a `text/plain` file and
clear the error, otherwise set an error and clear the file. -/
def handleFileChangeJsx (selected : Option SelectedFile) (s : UiState) : UiState :=
  match selected with
  | some f =>
    if f.type = "text/plain" then { s with file := some f, error := "" }
    else { s with error := "Please select a valid .txt file.", file := none }
  | none => { s with error := "Please select a valid .txt file.", file := none }

/-- `handleFileChange` of the compiled frontend: identical to the JSX
version. -/
def handleFileChangeCompiled (selected : Option SelectedFile) (s : UiState) : UiState :=
  match selected with
  | some f =>
    if f.type = "text/plain" then { s with file := some f, error := "" }
    else { s with error := "Please select a valid .txt file.", file := none }
  | none => { s with error := "Please select a valid .txt file.", file := none }

/-- `toggleProbabilities` of the JSX source. -/
def toggleProbabilitiesJsx (s : UiState) : UiState :=
  { s with showProbabilities := !s.showProbabilities }

/-- `toggleProbabilities` of the compiled frontend: identical. -/
def toggleProbabilitiesCompiled (s : UiState) : UiState :=
  { s with showProbabilities := !s.showProbabilities }

/-- Does the raw input contain at least one purely alphabetic
whitespace-delimited token? -/
def hasAlphaToken (raw : String) : Bool :=
  (pySplit raw).any (fun t => t.data.all Char.isAlpha)

/-- A fetch environment that answers the compiled text-submit URL with a
keyword response and fails on every other URL. -/
def envDistinguishing : String → FetchOutcome :=
  fun u => if u = textUrlCompiled then FetchOutcome.ok ⟨"", [⟨"ai", 1⟩]⟩
           else FetchOutcome.failure

/-- A fetch environment in which every request fails. -/
def constFailEnv : String → FetchOutcome :=
  fun _ => FetchOutcome.failure

/-- A blank initial component state with some text typed in. -/
def initialState : UiState :=
  ⟨"some text", none, [], "", false, false⟩

/-- A state showing previously extracted keywords, with no file selected. -/
def stateWithKeywords : UiState :=
  ⟨"", none, [⟨"ai", 1⟩], "", false, false⟩

/-- A state with keywords displayed and a plain-text file selected. -/
def stateWithFile : UiState :=
  ⟨"", some ⟨"a.txt", "text/plain"⟩, [⟨"ai", 1⟩], "", false, false⟩

/-- A concrete noun-phrase parser for witnesses. -/
def witnessParse : String → List String :=
  fun _ => ["machine learning", "ai"]

/-- A concrete scorer for witnesses: score a phrase by its length. -/
def witnessScore : String → ℚ :=
  fun s => (s.length : ℚ)

end KWX

namespace KWX

theorem insertDesc_length (p : Kw) (l : List Kw) :
    (insertDesc p l).length = l.length + 1 := by
  induction l with
  | nil => rfl
  | cons q rest ih =>
    unfold insertDesc
    by_cases h : q.score < p.score <;> simp [h, ih]

theorem sortDesc_go_length (l : List Kw) :
    ∀ acc : List Kw, (l.foldl (fun acc p => insertDesc p acc) acc).length =
      acc.length + l.length := by
  induction l with
  | nil => intro acc; rfl
  | cons p rest ih =>
    intro acc
    rw [List.foldl_cons, ih (insertDesc p acc), insertDesc_length, List.length_cons]
    omega

theorem sortDesc_length (l : List Kw) : (sortDesc l).length = l.length := by
  unfold sortDesc
  rw [sortDesc_go_length]
  simp

theorem sortDesc_ne_nil {l : List Kw} (h : l ≠ []) : sortDesc l ≠ [] := by
  intro hs
  apply h
  have := sortDesc_length l
  rw [hs] at this
  exact List.length_eq_zero.mp this.symm

theorem dedupCIAux_sublist (n : Nat) (l : List Kw) :
    (dedupCIAux n l).Sublist l := by
  induction n generalizing l with
  | zero => exact List.nil_sublist l
  | succ n ih =>
    cases l with
    | nil => exact List.Sublist.refl []
    | cons p rest =>
      unfold dedupCIAux
      exact List.Sublist.cons₂ p
        ((ih _).trans (List.filter_sublist rest))

theorem dedupCI_ne_nil {l : List Kw} (h : l ≠ []) : dedupCI l ≠ [] := by
  cases l with
  | nil => exact absurd rfl h
  | cons p rest =>
    unfold dedupCI dedupCIAux
    simp

theorem take_two_ne_nil {l : List Kw} (h : l ≠ []) : l.take 2 ≠ [] := by
  cases l with
  | nil => exact absurd rfl h
  | cons p rest => simp

theorem tierA_ne_nil {scored : List Kw} (h : scored ≠ []) : tierA scored ≠ [] := by
  unfold tierA
  exact take_two_ne_nil (dedupCI_ne_nil (sortDesc_ne_nil h))

/-- Claim C3: when the primary result is empty after the min_score cut but
the candidate sequence is non-empty, `apply_fallback` returns exactly the
top 2 candidates of the re-run selection without the min_score cut, which is
non-empty. -/
theorem apply_fallback_empty_primary (primary scored : List Kw)
    (score : String → ℚ) (doc : String)
    (hp : primary = []) (hs : scored ≠ []) :
    apply_fallback primary scored score doc = Except.ok (tierA scored) ∧
      tierA scored ≠ [] := by
  subst hp
  have h2 : scored.isEmpty = false := by
    cases scored with
    | nil => exact absurd rfl hs
    | cons a t => rfl
  constructor
  · unfold apply_fallback
    simp [h2]
  · exact tierA_ne_nil hs

/-- Witness for C3 at a concrete scored-candidate list. -/
theorem apply_fallback_empty_primary_witness :
    ([] : List Kw) = [] ∧ ([Kw.mk "ai" 1] : List Kw) ≠ [] ∧
      (apply_fallback [] [Kw.mk "ai" 1] (fun _ => 0) "" =
        Except.ok (tierA [Kw.mk "ai" 1]) ∧ tierA [Kw.mk "ai" 1] ≠ []) :=
  ⟨rfl, by decide,
    apply_fallback_empty_primary [] [Kw.mk "ai" 1] (fun _ => 0) "" rfl (by decide)⟩

/-- Claim C1: the stop-words removal code keeps stopwords. The snippet
builds the exclusion set but filters only on `len(word) >= 1`, so the
stopword "the", a member of the configured exclusion set, survives
unchanged. -/
theorem remove_stopwords_code_keeps_stopword :
    "the" ∈ stop_words ∧ remove_stopwords_code "the cat sat" = "the cat sat" := by
  constructor
  · decide
  · rfl

/-- Claim C7: the Normalizer rejects exactly the empty raw input with
`InvalidInputError` (undecodable byte input has no counterpart in the
embedding, where every input is already decoded text). -/
theorem normalizeE_error_iff (raw : String) :
    normalizeE raw = Except.error ExtractError.invalidInput ↔ raw = "" := by
  unfold normalizeE
  by_cases h : raw = "" <;> simp [h]

/-- Claim C9 counterexample: the JSX source and the compiled frontend do not
issue the text-submit request to the same URL, and against an environment
that only the compiled URL reaches they compute different states. -/
theorem frontend_text_submit_urls_differ :
    textUrlJsx ≠ textUrlCompiled ∧
      handleTextSubmitJsx envDistinguishing initialState ≠
        handleTextSubmitCompiled envDistinguishing initialState := by
  constructor
  · decide
  · intro h
    have := congrArg UiState.keywords h
    simp [handleTextSubmitJsx, handleTextSubmitCompiled, envDistinguishing,
      initialState, textUrlJsx, textUrlCompiled] at this

/-- Claim C9 amended: the two frontend versions are behaviorally equivalent
unconditionally for file submit, file selection and score toggle; for
`handleTextSubmit`, which posts to `localhost:5001` in the JSX source but to
`backend:5001` in the compiled file, the states agree whenever the
environment answers both URLs alike. -/
theorem frontend_versions_equiv_amended (env : String → FetchOutcome)
    (s : UiState) (sel : Option SelectedFile) :
    (env textUrlJsx = env textUrlCompiled →
      handleTextSubmitJsx env s = handleTextSubmitCompiled env s) ∧
    handleFileSubmitJsx env s = handleFileSubmitCompiled env s ∧
    handleFileChangeJsx sel s = handleFileChangeCompiled sel s ∧
    toggleProbabilitiesJsx s = toggleProbabilitiesCompiled s := by
  refine ⟨?_, rfl, rfl, rfl⟩
  intro h
  unfold handleTextSubmitJsx handleTextSubmitCompiled
  rw [h]

/-- Witness for the amended C9 at a concrete environment and state,
discharging the env-agreement hypothesis of the text-submit conjunct. -/
theorem frontend_versions_equiv_amended_witness :
    constFailEnv textUrlJsx = constFailEnv textUrlCompiled ∧
    handleTextSubmitJsx constFailEnv initialState =
      handleTextSubmitCompiled constFailEnv initialState ∧
    handleFileSubmitJsx constFailEnv initialState =
      handleFileSubmitCompiled constFailEnv initialState ∧
    handleFileChangeJsx none initialState =
      handleFileChangeCompiled none initialState ∧
    toggleProbabilitiesJsx initialState =
      toggleProbabilitiesCompiled initialState :=
  ⟨rfl,
    (frontend_versions_equiv_amended constFailEnv initialState none).1 rfl,
    (frontend_versions_equiv_amended constFailEnv initialState none).2.1,
    (frontend_versions_equiv_amended constFailEnv initialState none).2.2.1,
    (frontend_versions_equiv_amended constFailEnv initialState none).2.2.2⟩

/-- Claim C10 counterexample: `handleFileSubmit` invoked with no file
selected while keywords are displayed returns with BOTH a non-empty error
and a non-empty keyword list (the early return sets the error without
clearing the keywords). -/
theorem file_submit_error_and_keywords_both_nonempty :
    stateWithKeywords.file = none ∧
    (handleFileSubmitCompiled constFailEnv stateWithKeywords).error ≠ "" ∧
    (handleFileSubmitCompiled constFailEnv stateWithKeywords).keywords ≠ [] := by
  refine ⟨rfl, ?_, ?_⟩ <;> decide

/-- Claim C10 amended: after `handleTextSubmit`, and after any
`handleFileSubmit` invocation that actually sends a request (a file is
selected), at most one of the error string and the keywords list is
non-empty; the no-file early return of `handleFileSubmit` is the only
exception, setting an error without clearing keywords. -/
theorem handlers_error_keywords_exclusive (env : String → FetchOutcome)
    (s : UiState) :
    ((handleTextSubmitCompiled env s).error = "" ∨
      (handleTextSubmitCompiled env s).keywords = []) ∧
    (s.file ≠ none →
      ((handleFileSubmitCompiled env s).error = "" ∨
        (handleFileSubmitCompiled env s).keywords = [])) := by
  constructor
  · unfold handleTextSubmitCompiled
    cases env textUrlCompiled with
    | ok d =>
      by_cases h : d.error = "" <;> simp [h]
    | failure => simp
  · intro hf
    unfold handleFileSubmitCompiled
    cases hs : s.file with
    | none => exact absurd hs hf
    | some f =>
      cases env fileUrl with
      | ok d =>
        by_cases h : d.error = "" <;> simp [h]
      | failure => simp

theorem uint32_le_iff {a b : UInt32} : a ≤ b ↔ a.toNat ≤ b.toNat := by
  simp [UInt32.le_def, BitVec.le_def, UInt32.toNat]

theorem char_toNat_ofNat_valid {n : Nat} (h : n.isValidChar) :
    (Char.ofNat n).toNat = n := by
  rw [Char.ofNat, dif_pos h]
  simp [Char.ofNatAux, Char.toNat, UInt32.toNat, BitVec.toNat_ofNatLt]

theorem char_isUpper_iff (c : Char) :
    c.isUpper = true ↔ 65 ≤ c.toNat ∧ c.toNat ≤ 90 := by
  simp only [Char.isUpper, Bool.and_eq_true, decide_eq_true_eq]
  constructor
  · rintro ⟨h1, h2⟩
    exact ⟨uint32_le_iff.mp h1, uint32_le_iff.mp h2⟩
  · rintro ⟨h1, h2⟩
    exact ⟨uint32_le_iff.mpr h1, uint32_le_iff.mpr h2⟩

theorem toLower_isUpper_false (c : Char) : (Char.toLower c).isUpper = false := by
  unfold Char.toLower
  by_cases h : c.toNat ≥ 65 ∧ c.toNat ≤ 90
  · rw [if_pos h]
    have hv : (c.toNat + 32).isValidChar := Or.inl (by omega)
    have hval : (Char.ofNat (c.toNat + 32)).toNat = c.toNat + 32 :=
      char_toNat_ofNat_valid hv
    rw [Bool.eq_false_iff]
    intro hu
    have := (char_isUpper_iff _).mp hu
    omega
  · rw [if_neg h]
    rw [Bool.eq_false_iff]
    intro hu
    exact h ((char_isUpper_iff _).mp hu)

theorem toLower_eq_self_of_not_upper {c : Char} (h : c.isUpper = false) :
    Char.toLower c = c := by
  unfold Char.toLower
  rw [if_neg]
  intro hc
  rw [Bool.eq_false_iff] at h
  exact h ((char_isUpper_iff c).mpr hc)

theorem mem_lowerStage {c : Char} {l : List Char} (h : c ∈ lowerStage l) :
    c.isUpper = false := by
  unfold lowerStage at h
  obtain ⟨d, _, rfl⟩ := List.mem_map.mp h
  exact toLower_isUpper_false d

theorem mem_urlScanAux {c : Char} :
    ∀ (fuel : Nat) (l : List Char), c ∈ urlScanAux fuel l → c ∈ l := by
  intro fuel
  induction fuel with
  | zero => intro l h; exact h
  | succ n ih =>
    intro l h
    cases l with
    | nil => exact h
    | cons a rest =>
      unfold urlScanAux at h
      cases hm : urlMatchLen (a :: rest) with
      | some k =>
        rw [hm] at h
        exact List.mem_of_mem_drop (ih _ h)
      | none =>
        rw [hm] at h
        rcases List.mem_cons.mp h with h | h
        · exact h ▸ List.mem_cons_self a rest
        · exact List.mem_cons_of_mem a (ih _ h)

theorem findTagClose_sublist :
    ∀ (l r : List Char), findTagClose l = some r → r.Sublist l := by
  intro l
  induction l with
  | nil => intro r h; exact absurd h (by simp [findTagClose])
  | cons a rest ih =>
    intro r h
    unfold findTagClose at h
    by_cases ha : a = '>'
    · rw [if_pos ha] at h
      cases h
      exact List.sublist_cons_self a rest
    · rw [if_neg ha] at h
      by_cases hn : a = '\n'
      · rw [if_pos hn] at h
        exact absurd h (by simp)
      · rw [if_neg hn] at h
        exact (ih r h).trans (List.sublist_cons_self a rest)

theorem mem_htmlScanAux {c : Char} :
    ∀ (fuel : Nat) (l : List Char), c ∈ htmlScanAux fuel l → c ∈ l := by
  intro fuel
  induction fuel with
  | zero => intro l h; exact h
  | succ n ih =>
    intro l h
    cases l with
    | nil => exact h
    | cons a rest =>
      unfold htmlScanAux at h
      by_cases ha : a = '<'
      · rw [if_pos ha] at h
        cases hm : findTagClose rest with
        | some suffix =>
          rw [hm] at h
          exact List.mem_cons_of_mem a ((findTagClose_sublist rest suffix hm).mem (ih _ h))
        | none =>
          rw [hm] at h
          rcases List.mem_cons.mp h with h | h
          · exact h ▸ List.mem_cons_self a rest
          · exact List.mem_cons_of_mem a (ih _ h)
      · rw [if_neg ha] at h
        rcases List.mem_cons.mp h with h | h
        · exact h ▸ List.mem_cons_self a rest
        · exact List.mem_cons_of_mem a (ih _ h)

theorem mem_stripEnds {c : Char} {l : List Char} (h : c ∈ stripEnds l) :
    c ∈ l := by
  unfold stripEnds at h
  rw [List.mem_reverse] at h
  have h2 := (List.dropWhile_sublist _).mem h
  rw [List.mem_reverse] at h2
  exact (List.dropWhile_sublist _).mem h2

theorem mem_collapseWs {c : Char} :
    ∀ l : List Char, c ∈ collapseWs l →
      (c ∈ l ∧ isPySpace c = false) ∨ c = ' ' := by
  intro l
  induction l using collapseWs.induct with
  | case1 => intro h; exact absurd h (by simp [collapseWs])
  | case2 d =>
    intro h
    unfold collapseWs at h
    by_cases hd : isPySpace d
    · rw [if_pos hd] at h
      right
      simpa using h
    · rw [if_neg hd] at h
      left
      constructor
      · simpa using h
      · simp at h
        rw [h]
        exact Bool.not_eq_true _ ▸ (by simpa using hd)
  | case3 a b rest hab ih =>
    intro h
    unfold collapseWs at h
    rw [if_pos hab] at h
    rcases ih h with ⟨hm, hs⟩ | hsp
    · exact Or.inl ⟨List.mem_cons_of_mem a hm, hs⟩
    · exact Or.inr hsp
  | case4 a b rest hab ih =>
    intro h
    unfold collapseWs at h
    rw [if_neg hab] at h
    rcases List.mem_cons.mp h with h | h
    · by_cases ha : isPySpace a
      · rw [if_pos ha] at h
        exact Or.inr h
      · rw [if_neg ha] at h
        exact Or.inl ⟨h ▸ List.mem_cons_self a (b :: rest), h ▸ Bool.of_not_eq_true ha⟩
    · rcases ih h with ⟨hm, hs⟩ | hsp
      · exact Or.inl ⟨List.mem_cons_of_mem a hm, hs⟩
      · exact Or.inr hsp

theorem mem_punctStage {c : Char} {l : List Char} (h : c ∈ punctStage l) :
    c ∈ l ∧ isKeptChar c = true := by
  unfold punctStage at h
  exact ⟨List.mem_of_mem_filter h, List.of_mem_filter h⟩

theorem collapseWs_ne_nil : ∀ {l : List Char}, l ≠ [] → collapseWs l ≠ [] := by
  intro l
  induction l using collapseWs.induct with
  | case1 => intro h; exact absurd rfl h
  | case2 d => intro _; simp [collapseWs]
  | case3 a b rest hab ih =>
    intro _
    unfold collapseWs
    rw [if_pos hab]
    exact ih (by simp)
  | case4 a b rest hab ih =>
    intro _
    unfold collapseWs
    rw [if_neg hab]
    simp

theorem collapseWs_head_of_not_space {b : Char} {rest : List Char}
    (hb : isPySpace b = false) :
    (collapseWs (b :: rest)).head? = some b := by
  cases rest with
  | nil =>
    unfold collapseWs
    rw [if_neg (by simp [hb])]
    rfl
  | cons c r =>
    unfold collapseWs
    rw [if_neg (by simp [hb])]
    simp [hb]

theorem collapseWs_chain (l : List Char) :
    List.Chain' (fun x y => ¬(isPySpace x = true ∧ isPySpace y = true))
      (collapseWs l) := by
  induction l using collapseWs.induct with
  | case1 => simp [collapseWs]
  | case2 d => simp [collapseWs]
  | case3 a b rest hab ih =>
    unfold collapseWs
    rw [if_pos hab]
    exact ih
  | case4 a b rest hab ih =>
    unfold collapseWs
    rw [if_neg hab]
    rw [List.chain'_cons']
    refine ⟨?_, ih⟩
    intro y hy
    by_cases ha : isPySpace a
    · rw [if_pos ha]
      have hb : isPySpace b = false := by
        cases hpb : isPySpace b
        · rfl
        · exact absurd (by rw [ha, hpb]; rfl) hab
      rw [collapseWs_head_of_not_space hb] at hy
      cases hy
      intro ⟨_, hsp⟩
      rw [hb] at hsp
      exact Bool.false_ne_true hsp
    · rw [if_neg ha]
      intro ⟨hsp, _⟩
      exact ha hsp

theorem collapseWs_getLast_of_not_space :
    ∀ {l : List Char} {c : Char}, l.getLast? = some c → isPySpace c = false →
      (collapseWs l).getLast? = some c := by
  intro l
  induction l using collapseWs.induct with
  | case1 => intro c h _; exact absurd h (by simp)
  | case2 d =>
    intro c h hc
    simp at h
    subst h
    unfold collapseWs
    rw [if_neg (by simp [hc])]
    rfl
  | case3 a b rest hab ih =>
    intro c h hc
    rw [List.getLast?_cons_cons] at h
    unfold collapseWs
    rw [if_pos hab]
    exact ih h hc
  | case4 a b rest hab ih =>
    intro c h hc
    rw [List.getLast?_cons_cons] at h
    unfold collapseWs
    rw [if_neg hab]
    have htail := ih h hc
    cases hx : collapseWs (b :: rest) with
    | nil => exact absurd hx (collapseWs_ne_nil (by simp))
    | cons x xs =>
      rw [hx] at htail
      rw [List.getLast?_cons_cons]
      exact htail

theorem collapseWs_eq_self :
    ∀ {l : List Char},
      List.Chain' (fun x y => ¬(isPySpace x = true ∧ isPySpace y = true)) l →
      (∀ c ∈ l, isPySpace c = true → c = ' ') → collapseWs l = l := by
  intro l
  induction l using collapseWs.induct with
  | case1 => intro _ _; rfl
  | case2 d =>
    intro _ hsp
    unfold collapseWs
    by_cases hd : isPySpace d
    · rw [if_pos hd, hsp d (by simp) hd]
    · rw [if_neg hd]
  | case3 a b rest hab ih =>
    intro hch _
    simp only [Bool.and_eq_true] at hab
    exact absurd hab (List.chain'_cons.mp hch).1
  | case4 a b rest hab ih =>
    intro hch hsp
    unfold collapseWs
    rw [if_neg hab]
    have htail := ih (List.chain'_cons.mp hch).2
      (fun c hc h => hsp c (List.mem_cons_of_mem a hc) h)
    rw [htail]
    by_cases ha : isPySpace a
    · rw [if_pos ha, hsp a (by simp) ha]
    · rw [if_neg ha]

theorem stripEnds_head_not_space {l : List Char} {h : Char}
    (hh : (stripEnds l).head? = some h) : isPySpace h = false := by
  unfold stripEnds at hh
  have hsuf : ((l.dropWhile isPySpace).reverse.dropWhile isPySpace) <:+
      (l.dropWhile isPySpace).reverse := List.dropWhile_suffix isPySpace
  have hpre := List.reverse_prefix.mpr hsuf
  rw [List.reverse_reverse] at hpre
  obtain ⟨t, ht⟩ := hpre
  have hd : (l.dropWhile isPySpace).head? = some h := by
    rw [← ht]
    cases hx : ((l.dropWhile isPySpace).reverse.dropWhile isPySpace).reverse with
    | nil => rw [hx] at hh; exact absurd hh (by simp)
    | cons x xs =>
      rw [hx] at hh
      simp at hh
      subst hh
      rfl
  have := List.head?_dropWhile_not isPySpace l
  rw [hd] at this
  exact this

theorem stripEnds_getLast_not_space {l : List Char} {h : Char}
    (hh : (stripEnds l).getLast? = some h) : isPySpace h = false := by
  unfold stripEnds at hh
  rw [List.getLast?_reverse] at hh
  have := List.head?_dropWhile_not isPySpace (l.dropWhile isPySpace).reverse
  rw [hh] at this
  exact this

theorem stripEnds_eq_self {l : List Char}
    (hhead : ∀ h, l.head? = some h → isPySpace h = false)
    (hlast : ∀ h, l.getLast? = some h → isPySpace h = false) :
    stripEnds l = l := by
  unfold stripEnds
  have h1 : l.dropWhile isPySpace = l := by
    cases l with
    | nil => rfl
    | cons a t =>
      rw [List.dropWhile_cons_of_neg]
      rw [hhead a rfl]
      exact Bool.false_ne_true
  rw [h1]
  have h2 : l.reverse.dropWhile isPySpace = l.reverse := by
    cases hx : l.reverse with
    | nil => rfl
    | cons a t =>
      rw [List.dropWhile_cons_of_neg]
      have : l.getLast? = some a := by
        rw [List.getLast?_eq_head?_reverse, hx]
        rfl
      rw [hlast a this]
      exact Bool.false_ne_true
  rw [h2, List.reverse_reverse]

theorem char_isLower_iff (c : Char) :
    c.isLower = true ↔ 97 ≤ c.toNat ∧ c.toNat ≤ 122 := by
  simp only [Char.isLower, Bool.and_eq_true, decide_eq_true_eq]
  constructor
  · rintro ⟨h1, h2⟩
    exact ⟨uint32_le_iff.mp h1, uint32_le_iff.mp h2⟩
  · rintro ⟨h1, h2⟩
    exact ⟨uint32_le_iff.mpr h1, uint32_le_iff.mpr h2⟩

theorem char_isDigit_iff (c : Char) :
    c.isDigit = true ↔ 48 ≤ c.toNat ∧ c.toNat ≤ 57 := by
  simp only [Char.isDigit, Bool.and_eq_true, decide_eq_true_eq]
  constructor
  · rintro ⟨h1, h2⟩
    exact ⟨uint32_le_iff.mp h1, uint32_le_iff.mp h2⟩
  · rintro ⟨h1, h2⟩
    exact ⟨uint32_le_iff.mpr h1, uint32_le_iff.mpr h2⟩

theorem isPySpace_cases {c : Char} (h : isPySpace c = true) :
    c = ' ' ∨ c = '\t' ∨ c = '\n' ∨ c = '\r' ∨ c = '\x0b' ∨ c = '\x0c' := by
  simpa [isPySpace, or_assoc] using h

theorem isCleanChar_cases {c : Char} (h : isCleanChar c = true) :
    c.isLower = true ∨ c.isDigit = true ∨ c = '_' ∨ c = '-' ∨ c = ' ' := by
  simpa [isCleanChar, or_assoc] using h

theorem isCleanChar_not_upper {c : Char} (h : isCleanChar c = true) :
    c.isUpper = false := by
  rcases isCleanChar_cases h with hl | hd | he | he | he
  · rw [Bool.eq_false_iff]
    intro hu
    have h1 := (char_isLower_iff c).mp hl
    have h2 := (char_isUpper_iff c).mp hu
    omega
  · rw [Bool.eq_false_iff]
    intro hu
    have h1 := (char_isDigit_iff c).mp hd
    have h2 := (char_isUpper_iff c).mp hu
    omega
  all_goals subst he; decide

theorem isCleanChar_space_eq {c : Char} (h : isCleanChar c = true)
    (hs : isPySpace c = true) : c = ' ' := by
  rcases isPySpace_cases hs with he | he | he | he | he | he
  · exact he
  all_goals subst he; exact absurd h (by decide)

theorem isCleanChar_kept {c : Char} (h : isCleanChar c = true) :
    isKeptChar c = true := by
  rcases isCleanChar_cases h with hl | hd | he | he | he
  · simp [isKeptChar, isWordChar, Char.isAlphanum, Char.isAlpha, hl]
  · simp [isKeptChar, isWordChar, Char.isAlphanum, hd]
  all_goals subst he; decide

theorem kept_not_space_clean {c : Char} (hk : isKeptChar c = true)
    (hs : isPySpace c = false) (hu : c.isUpper = false) :
    isCleanChar c = true := by
  have hk2 : isWordChar c = true ∨ c = '-' := by
    rcases (by simpa [isKeptChar, or_assoc] using hk :
        isWordChar c = true ∨ isPySpace c = true ∨ c = '-') with h | h | h
    · exact Or.inl h
    · rw [hs] at h; exact absurd h Bool.false_ne_true
    · exact Or.inr h
  rcases hk2 with hw | he
  · rcases (by simpa [isWordChar, Char.isAlphanum, Char.isAlpha] using hw :
        ((c.isUpper = true ∨ c.isLower = true) ∨ c.isDigit = true) ∨ c = '_') with
      (h | h) | h
    · rcases h with h | h
      · rw [hu] at h; exact absurd h Bool.false_ne_true
      · simp [isCleanChar, h]
    · simp [isCleanChar, h]
    · simp [isCleanChar, h]
  · simp [isCleanChar, he]

theorem cleanList_chars {l : List Char} {c : Char} (hc : c ∈ cleanList l) :
    isCleanChar c = true := by
  unfold cleanList wsStage at hc
  rcases mem_collapseWs _ hc with ⟨hm, hsp⟩ | he
  · have hm2 := mem_stripEnds hm
    obtain ⟨hm3, hkept⟩ := mem_punctStage hm2
    have hm4 := mem_urlScanAux _ _ (mem_htmlScanAux _ _ hm3)
    have hup := mem_lowerStage hm4
    exact kept_not_space_clean hkept hsp hup
  · subst he; decide

theorem cleanList_chain (l : List Char) :
    List.Chain' (fun x y => ¬(isPySpace x = true ∧ isPySpace y = true))
      (cleanList l) :=
  collapseWs_chain _

theorem cleanList_head {l : List Char} {h : Char}
    (hh : (cleanList l).head? = some h) : isPySpace h = false := by
  unfold cleanList wsStage at hh
  cases hx : stripEnds (punctStage (htmlStage (urlStage (lowerStage l)))) with
  | nil =>
    rw [hx] at hh
    exact absurd hh (by simp [collapseWs])
  | cons b t =>
    rw [hx] at hh
    have hb : isPySpace b = false :=
      stripEnds_head_not_space (l := punctStage (htmlStage (urlStage (lowerStage l))))
        (by rw [hx]; rfl)
    rw [collapseWs_head_of_not_space hb] at hh
    cases hh
    exact hb

theorem cleanList_getLast {l : List Char} {h : Char}
    (hh : (cleanList l).getLast? = some h) : isPySpace h = false := by
  unfold cleanList wsStage at hh
  cases hx : stripEnds (punctStage (htmlStage (urlStage (lowerStage l)))) with
  | nil =>
    rw [hx] at hh
    exact absurd hh (by simp [collapseWs])
  | cons b t =>
    have hne : (b :: t) ≠ ([] : List Char) := by simp
    have hsome : ∃ c, (b :: t).getLast? = some c := by
      cases hgl : (b :: t).getLast? with
      | none => exact absurd (List.getLast?_eq_none_iff.mp hgl) hne
      | some c => exact ⟨c, rfl⟩
    obtain ⟨c, hc⟩ := hsome
    have hcs : isPySpace c = false :=
      stripEnds_getLast_not_space (l := punctStage (htmlStage (urlStage (lowerStage l))))
        (by rw [hx, hc])
    rw [hx, collapseWs_getLast_of_not_space hc hcs] at hh
    cases hh
    exact hcs

theorem startsWithLit_mem :
    ∀ (p l : List Char), startsWithLit p l = true → ∀ x ∈ p, x ∈ l := by
  intro p
  induction p with
  | nil => intro l _ x hx; exact absurd hx (by simp)
  | cons a ps ih =>
    intro l h x hx
    cases l with
    | nil => exact absurd h (by simp [startsWithLit])
    | cons c cs =>
      unfold startsWithLit at h
      rw [Bool.and_eq_true] at h
      obtain ⟨hac, hps⟩ := h
      rcases List.mem_cons.mp hx with hx | hx
      · rw [hx, decide_eq_true_eq.mp hac]
        exact List.mem_cons_self c cs
      · exact List.mem_cons_of_mem c (ih cs hps x hx)

theorem urlMatchLen_eq_none {l : List Char}
    (hcolon : ':' ∉ l) (hdot : '.' ∉ l) : urlMatchLen l = none := by
  unfold urlMatchLen
  rw [if_neg, if_neg, if_neg]
  · intro h
    exact hdot (startsWithLit_mem _ _ h '.' (by decide))
  · intro h
    exact hcolon (startsWithLit_mem _ _ h ':' (by decide))
  · intro h
    exact hcolon (startsWithLit_mem _ _ h ':' (by decide))

theorem urlScanAux_eq_self :
    ∀ (fuel : Nat) (l : List Char), ':' ∉ l → '.' ∉ l →
      urlScanAux fuel l = l := by
  intro fuel
  induction fuel with
  | zero => intro l _ _; rfl
  | succ n ih =>
    intro l hc hd
    cases l with
    | nil => rfl
    | cons a rest =>
      unfold urlScanAux
      rw [urlMatchLen_eq_none hc hd]
      rw [ih rest (fun h => hc (List.mem_cons_of_mem a h))
        (fun h => hd (List.mem_cons_of_mem a h))]

theorem htmlScanAux_eq_self :
    ∀ (fuel : Nat) (l : List Char), '<' ∉ l → htmlScanAux fuel l = l := by
  intro fuel
  induction fuel with
  | zero => intro l _; rfl
  | succ n ih =>
    intro l hl
    cases l with
    | nil => rfl
    | cons a rest =>
      unfold htmlScanAux
      have hne : ¬(a = '<') := by
        intro h
        apply hl
        rw [h]
        exact List.mem_cons_self _ _
      rw [if_neg hne]
      rw [ih rest (fun h => hl (List.mem_cons_of_mem a h))]

theorem lowerStage_eq_self {l : List Char} (h : ∀ c ∈ l, c.isUpper = false) :
    lowerStage l = l := by
  unfold lowerStage
  have : l.map Char.toLower = l.map id :=
    List.map_congr_left (fun c hc => toLower_eq_self_of_not_upper (h c hc))
  rw [this, List.map_id]

theorem punctStage_eq_self {l : List Char} (h : ∀ c ∈ l, isKeptChar c = true) :
    punctStage l = l :=
  List.filter_eq_self.mpr h

theorem cleanList_idem (l : List Char) : cleanList (cleanList l) = cleanList l := by
  have hchars : ∀ c ∈ cleanList l, isCleanChar c = true :=
    fun c hc => cleanList_chars hc
  have h1 : lowerStage (cleanList l) = cleanList l :=
    lowerStage_eq_self (fun c hc => isCleanChar_not_upper (hchars c hc))
  have hnc : ':' ∉ cleanList l := fun h =>
    absurd (hchars ':' h) (by decide)
  have hnd : '.' ∉ cleanList l := fun h =>
    absurd (hchars '.' h) (by decide)
  have hnl : '<' ∉ cleanList l := fun h =>
    absurd (hchars '<' h) (by decide)
  have h2 : urlStage (cleanList l) = cleanList l :=
    urlScanAux_eq_self _ _ hnc hnd
  have h3 : htmlStage (cleanList l) = cleanList l :=
    htmlScanAux_eq_self _ _ hnl
  have h4 : punctStage (cleanList l) = cleanList l :=
    punctStage_eq_self (fun c hc => isCleanChar_kept (hchars c hc))
  have h5 : stripEnds (cleanList l) = cleanList l :=
    stripEnds_eq_self
      (fun h hh => cleanList_head hh)
      (fun h hh => cleanList_getLast hh)
  have h6 : collapseWs (cleanList l) = cleanList l :=
    collapseWs_eq_self (cleanList_chain l)
      (fun c hc hs => isCleanChar_space_eq (hchars c hc) hs)
  show wsStage (punctStage (htmlStage (urlStage (lowerStage (cleanList l))))) =
    cleanList l
  rw [h1, h2, h3, h4]
  show collapseWs (stripEnds (cleanList l)) = cleanList l
  rw [h5, h6]

/-- Claim C2 counterexample: the punctuation-stripping regex `[^\w\s-]`
keeps underscores (`\w` matches them), so on input `A_b!` the normalized
output `a_b` contains a character that is neither a lowercase letter, nor a
digit, nor a hyphen, nor a space. -/
theorem normalize_underscore_survives :
    normalize "A_b!" = "a_b" ∧ '_' ∈ (normalize "A_b!").data ∧
      '_'.isLower = false ∧ '_'.isDigit = false ∧ '_' ≠ '-' ∧ '_' ≠ ' ' :=
  ⟨by rfl, by decide, by decide, by decide, by decide, by decide⟩

/-- Claim C2 (amended): normalize applies lowercasing, URL stripping,
markup stripping, punctuation stripping and whitespace collapsing in this
fixed order, and afterwards every surviving character is a lowercase
letter, digit, underscore, hyphen, or space; whitespace is fully collapsed:
no two adjacent whitespace characters remain and the result has no leading
or trailing whitespace. -/
theorem normalize_shape (s : String) :
    (∀ c ∈ (normalize s).data, isCleanChar c = true) ∧
    List.Chain' (fun a b => ¬(isPySpace a = true ∧ isPySpace b = true))
      (normalize s).data ∧
    (∀ h, (normalize s).data.head? = some h → isPySpace h = false) ∧
    (∀ h, (normalize s).data.getLast? = some h → isPySpace h = false) :=
  ⟨fun _ hc => cleanList_chars hc, cleanList_chain _,
    fun _ hh => cleanList_head hh, fun _ hh => cleanList_getLast hh⟩

/-- Witness for the amended C2 on the input `A_b! x` (normalized: `a_b x`). -/
theorem normalize_shape_witness :
    'a' ∈ (normalize "A_b! x").data ∧ isCleanChar 'a' = true ∧
    ((normalize "A_b! x").data.head? = some 'a' ∧ isPySpace 'a' = false) ∧
    ((normalize "A_b! x").data.getLast? = some 'x' ∧ isPySpace 'x' = false) :=
  ⟨by decide, (normalize_shape "A_b! x").1 'a' (by decide),
   ⟨by decide, (normalize_shape "A_b! x").2.2.1 'a' (by decide)⟩,
   ⟨by decide, (normalize_shape "A_b! x").2.2.2 'x' (by decide)⟩⟩

/-- Claim C8: normalization is idempotent: a second pass of `clean_text`
over its own output changes nothing (the output has no uppercase letters,
no URL or markup metacharacters, no strippable punctuation, and fully
collapsed whitespace). -/
theorem normalize_idempotent (s : String) :
    normalize (normalize s) = normalize s :=
  congrArg String.mk (cleanList_idem s.data)

theorem wordsGo_ne_nil :
    ∀ (l acc : List Char), acc ≠ [] → wordsGo l acc ≠ [] := by
  intro l
  induction l with
  | nil =>
    intro acc hacc
    unfold wordsGo
    rw [if_neg (by simpa using hacc)]
    simp
  | cons c rest ih =>
    intro acc hacc
    unfold wordsGo
    by_cases hc : isPySpace c
    · rw [if_pos hc, if_neg (by simpa using hacc)]
      simp
    · rw [if_neg hc]
      exact ih (c :: acc) (by simp)

theorem words_cons_ne_nil {h : Char} {t : List Char} (hh : isPySpace h = false) :
    words (h :: t) ≠ [] := by
  have hstep : words (h :: t) = wordsGo t [h] := by
    simp [words, wordsGo, hh]
  rw [hstep]
  exact wordsGo_ne_nil t [h] (by simp)

theorem pySplit_normalize_ne_nil {raw : String} (h : normalize raw ≠ "") :
    pySplit (normalize raw) ≠ [] := by
  have hl : cleanList raw.data ≠ [] := by
    intro hnil
    apply h
    show String.mk (cleanList raw.data) = ""
    rw [hnil]
  have hdata : (normalize raw).data = cleanList raw.data := rfl
  cases hx : cleanList raw.data with
  | nil => exact absurd hx hl
  | cons b t =>
    have hb : isPySpace b = false :=
      cleanList_head (l := raw.data) (by rw [hx]; rfl)
    unfold pySplit
    intro hmap
    have hwords : words (normalize raw).data = [] := by
      simpa using hmap
    rw [hdata, hx] at hwords
    exact words_cons_ne_nil hb hwords

theorem tierB_ne_nil {score : String → ℚ} {doc : String}
    (h : pySplit doc ≠ []) : tierB score doc ≠ [] := by
  unfold tierB
  apply take_two_ne_nil
  apply dedupCI_ne_nil
  apply sortDesc_ne_nil
  simpa using h

theorem apply_fallback_ok (primary scored : List Kw) (score : String → ℚ)
    (doc : String) (hvocab : pySplit doc ≠ []) :
    ∃ l, apply_fallback primary scored score doc = Except.ok l ∧ l ≠ [] := by
  unfold apply_fallback
  by_cases hp : primary.isEmpty = true
  · rw [if_pos hp]
    by_cases hs : scored.isEmpty = true
    · rw [if_pos hs]
      have htb : tierB score doc ≠ [] := tierB_ne_nil hvocab
      rw [if_neg (by simpa using htb)]
      exact ⟨tierB score doc, rfl, htb⟩
    · rw [if_neg hs]
      exact ⟨tierA scored, rfl, tierA_ne_nil (by simpa using hs)⟩
  · rw [if_neg hp]
    exact ⟨primary, rfl, by simpa using hp⟩

/-- Claim C4 counterexample: the input `"< hello >"` is non-empty and
contains the alphabetic token `hello`, yet the pipeline fails with
`NoKeywordsError`: the markup-stripping regex `<.*?>` erases the whole
input, so the document is empty post-normalization. -/
theorem extract_keywords_starves_on_markup :
    hasAlphaToken "< hello >" = true ∧ "< hello >" ≠ "" ∧
      extract_keywords (fun _ => []) (fun _ => 1) defaultOptions "< hello >" =
        Except.error ExtractError.noKeywords :=
  ⟨by decide, by decide, by rfl⟩

/-- Claim C4 (amended): for every input whose document is non-empty AFTER
normalization, the pipeline returns a non-empty keyword list (never an
error), for every parser and scorer; and `NoKeywordsError` arises only when
the document is empty post-normalization. An alphabetic token in the raw
input is not sufficient: it can be swallowed by the markup-stripping step. -/
theorem extract_keywords_nonstarvation (parse : String → List String)
    (score : String → ℚ) (opts : Options) (raw : String) :
    (raw ≠ "" → normalize raw ≠ "" →
      ∃ l, extract_keywords parse score opts raw = Except.ok l ∧ l ≠ []) ∧
    (extract_keywords parse score opts raw = Except.error ExtractError.noKeywords →
      normalize raw = "") := by
  constructor
  · intro hraw hdoc
    unfold extract_keywords
    rw [if_neg hraw, if_neg hdoc]
    exact apply_fallback_ok _ _ score (normalize raw) (pySplit_normalize_ne_nil hdoc)
  · intro herr
    by_cases hraw : raw = ""
    · subst hraw
      rfl
    · by_contra hdoc
      obtain ⟨l, hok, _⟩ :=
        (by
          unfold extract_keywords
          rw [if_neg hraw, if_neg hdoc]
          exact apply_fallback_ok _ _ score (normalize raw)
            (pySplit_normalize_ne_nil hdoc) :
          ∃ l, extract_keywords parse score opts raw = Except.ok l ∧ l ≠ [])
      rw [hok] at herr
      exact absurd herr (by simp)

/-- Witness for the amended C4 at a concrete parser, scorer and input. -/
theorem extract_keywords_nonstarvation_witness :
    ("ai ml" : String) ≠ "" ∧ normalize "ai ml" ≠ "" ∧
      (∃ l, extract_keywords witnessParse witnessScore defaultOptions "ai ml" =
        Except.ok l ∧ l ≠ []) :=
  ⟨by decide, by decide,
    (extract_keywords_nonstarvation witnessParse witnessScore defaultOptions
      "ai ml").1 (by decide) (by decide)⟩

theorem mem_insertDesc {x p : Kw} :
    ∀ {l : List Kw}, x ∈ insertDesc p l → x = p ∨ x ∈ l := by
  intro l
  induction l with
  | nil => intro h; simpa [insertDesc] using h
  | cons q rest ih =>
    intro h
    unfold insertDesc at h
    by_cases hq : q.score < p.score
    · rw [if_pos hq] at h
      rcases List.mem_cons.mp h with h | h
      · exact Or.inl h
      · exact Or.inr h
    · rw [if_neg hq] at h
      rcases List.mem_cons.mp h with h | h
      · exact Or.inr (h ▸ List.mem_cons_self q rest)
      · rcases ih h with h | h
        · exact Or.inl h
        · exact Or.inr (List.mem_cons_of_mem q h)

theorem pairwise_insertDesc {p : Kw} :
    ∀ {l : List Kw}, List.Pairwise (fun a b => b.score ≤ a.score) l →
      List.Pairwise (fun a b => b.score ≤ a.score) (insertDesc p l) := by
  intro l
  induction l with
  | nil => intro _; exact List.pairwise_singleton _ p
  | cons q rest ih =>
    intro hp
    rcases List.pairwise_cons.mp hp with ⟨hq, hrest⟩
    unfold insertDesc
    by_cases hqp : q.score < p.score
    · rw [if_pos hqp]
      refine List.pairwise_cons.mpr ⟨?_, hp⟩
      intro x hx
      rcases List.mem_cons.mp hx with hx | hx
      · rw [hx]; exact le_of_lt hqp
      · exact le_trans (hq x hx) (le_of_lt hqp)
    · rw [if_neg hqp]
      refine List.pairwise_cons.mpr ⟨?_, ih hrest⟩
      intro x hx
      rcases mem_insertDesc hx with hx | hx
      · rw [hx]; exact le_of_not_lt hqp
      · exact hq x hx

theorem sortDesc_pairwise (l : List Kw) :
    List.Pairwise (fun a b => b.score ≤ a.score) (sortDesc l) := by
  unfold sortDesc
  suffices h : ∀ acc, List.Pairwise (fun a b => b.score ≤ a.score) acc →
      List.Pairwise (fun a b => b.score ≤ a.score)
        (l.foldl (fun acc p => insertDesc p acc) acc) from
    h [] List.Pairwise.nil
  induction l with
  | nil => intro acc h; exact h
  | cons p rest ih =>
    intro acc h
    rw [List.foldl_cons]
    exact ih _ (pairwise_insertDesc h)

theorem dedupCIAux_distinct :
    ∀ (n : Nat) (l : List Kw),
      List.Pairwise (fun a b => lowerKey a.keyword ≠ lowerKey b.keyword)
        (dedupCIAux n l) := by
  intro n
  induction n with
  | zero => intro l; exact List.Pairwise.nil
  | succ m ih =>
    intro l
    cases l with
    | nil => exact List.Pairwise.nil
    | cons p rest =>
      unfold dedupCIAux
      refine List.pairwise_cons.mpr ⟨?_, ih _⟩
      intro x hx
      have hx2 : x ∈ rest.filter
          (fun q => lowerKey q.keyword != lowerKey p.keyword) :=
        (dedupCIAux_sublist m _).mem hx
      have hbne := List.of_mem_filter hx2
      exact (bne_iff_ne.mp hbne).symm

theorem select_sublist (scored : List Kw) (k : Nat) (m : ℚ) :
    (select scored k m).Sublist (dedupCI (sortDesc scored)) := by
  unfold select
  exact (List.filter_sublist _).trans (List.take_sublist _ _)

theorem extract_ok_form {parse : String → List String} {score : String → ℚ}
    {opts : Options} {raw : String} {l : List Kw}
    (h : extract_keywords parse score opts raw = Except.ok l) :
    ∃ src : List Kw, l.Sublist (dedupCI (sortDesc src)) := by
  unfold extract_keywords at h
  by_cases h1 : raw = ""
  · rw [if_pos h1] at h
    exact absurd h (by simp)
  rw [if_neg h1] at h
  by_cases h2 : normalize raw = ""
  · rw [if_pos h2] at h
    exact absurd h (by simp)
  rw [if_neg h2] at h
  unfold apply_fallback at h
  by_cases hp : (select (pipelineScored parse score (normalize raw))
      opts.top_k opts.min_score).isEmpty = true
  · rw [if_pos hp] at h
    by_cases hs : (pipelineScored parse score (normalize raw)).isEmpty = true
    · rw [if_pos hs] at h
      by_cases htb : (tierB score (normalize raw)).isEmpty = true
      · rw [if_pos htb] at h
        exact absurd h (by simp)
      · rw [if_neg htb] at h
        refine ⟨(pySplit (normalize raw)).map (fun t => Kw.mk t (score t)), ?_⟩
        have hl : l = tierB score (normalize raw) := by
          cases h
          rfl
        rw [hl]
        unfold tierB
        exact List.take_sublist _ _
    · rw [if_neg hs] at h
      refine ⟨pipelineScored parse score (normalize raw), ?_⟩
      have hl : l = tierA (pipelineScored parse score (normalize raw)) := by
        cases h
        rfl
      rw [hl]
      unfold tierA
      exact List.take_sublist _ _
  · rw [if_neg hp] at h
    refine ⟨pipelineScored parse score (normalize raw), ?_⟩
    have hl : l = select (pipelineScored parse score (normalize raw))
        opts.top_k opts.min_score := by
      cases h
      rfl
    rw [hl]
    exact select_sublist _ _ _

/-- Claim C5: every keyword result set returned by `extract_keywords` has
monotonically non-increasing scores: each adjacent pair satisfies
`score[i] >= score[i+1]`. -/
theorem extract_keywords_scores_sorted (parse : String → List String)
    (score : String → ℚ) (opts : Options) (raw : String) (l : List Kw)
    (h : extract_keywords parse score opts raw = Except.ok l) :
    List.Chain' (fun a b => b.score ≤ a.score) l := by
  obtain ⟨src, hsub⟩ := extract_ok_form h
  have hsorted : List.Pairwise (fun a b => b.score ≤ a.score)
      (dedupCI (sortDesc src)) :=
    List.Pairwise.sublist (dedupCIAux_sublist _ _) (sortDesc_pairwise src)
  exact (List.Pairwise.sublist hsub hsorted).chain'

/-- Witness for C5 at a concrete parser, scorer and input. -/
theorem extract_keywords_scores_sorted_witness :
    extract_keywords witnessParse witnessScore defaultOptions "some text" =
      Except.ok [Kw.mk "machine learning" 16, Kw.mk "ai" 2] ∧
    List.Chain' (fun a b => b.score ≤ a.score)
      [Kw.mk "machine learning" 16, Kw.mk "ai" 2] :=
  ⟨by rfl, extract_keywords_scores_sorted witnessParse witnessScore
    defaultOptions "some text" [Kw.mk "machine learning" 16, Kw.mk "ai" 2]
    (by rfl)⟩

/-- Claim C6: no two entries of a keyword result set returned by
`extract_keywords` share the same surface text case-insensitively. -/
theorem extract_keywords_unique (parse : String → List String)
    (score : String → ℚ) (opts : Options) (raw : String) (l : List Kw)
    (h : extract_keywords parse score opts raw = Except.ok l) :
    List.Pairwise (fun a b => lowerKey a.keyword ≠ lowerKey b.keyword) l := by
  obtain ⟨src, hsub⟩ := extract_ok_form h
  exact List.Pairwise.sublist hsub (dedupCIAux_distinct _ _)

/-- Witness for C6 at a concrete parser, scorer and input. -/
theorem extract_keywords_unique_witness :
    extract_keywords witnessParse witnessScore defaultOptions "other text" =
      Except.ok [Kw.mk "machine learning" 16, Kw.mk "ai" 2] ∧
    List.Pairwise (fun a b => lowerKey a.keyword ≠ lowerKey b.keyword)
      [Kw.mk "machine learning" 16, Kw.mk "ai" 2] :=
  ⟨by rfl, extract_keywords_unique witnessParse witnessScore
    defaultOptions "other text" [Kw.mk "machine learning" 16, Kw.mk "ai" 2]
    (by rfl)⟩

/-- Witness for the amended C10 at a concrete environment and state with a
selected file. -/
theorem handlers_error_keywords_exclusive_witness :
    stateWithFile.file ≠ none ∧
    ((handleFileSubmitCompiled constFailEnv stateWithFile).error = "" ∨
      (handleFileSubmitCompiled constFailEnv stateWithFile).keywords = []) ∧
    ((handleTextSubmitCompiled constFailEnv stateWithFile).error = "" ∨
      (handleTextSubmitCompiled constFailEnv stateWithFile).keywords = []) :=
  ⟨by decide,
    (handlers_error_keywords_exclusive constFailEnv stateWithFile).2 (by decide),
    (handlers_error_keywords_exclusive constFailEnv stateWithFile).1⟩

end KWX
